import Mathlib

/-!
Verification of the heuristic content-analysis engine of the journal-entries
repository (source: the AI-analysis route handler containing
`analyzeSentiment`, `suggestCategories`, `extractThemes` and `POST`).

Text is modelled as a list of character code points (`List ℕ`); this matches
the JavaScript semantics for the ASCII texts the engine's lexicons are built
from.  JavaScript numbers are modelled as exact rationals (`ℚ`); every
comparison and rounding step the code performs is reproduced exactly.
-/

/-- Code points of a Lean string literal, the bridge from source-text literals
to the `List ℕ` text model. -/
def str (s : String) : List ℕ := s.toList.map Char.toNat

/-- JavaScript `\w` character class: `[A-Za-z0-9_]`. -/
def isWordChar (c : ℕ) : Bool :=
  decide ((48 ≤ c ∧ c ≤ 57) ∨ (65 ≤ c ∧ c ≤ 90) ∨ (97 ≤ c ∧ c ≤ 122) ∨ c = 95)

/-- ASCII whitespace, the fragment of JavaScript `\s` / `trim` relevant here. -/
def wsChar (c : ℕ) : Bool := decide (c = 32 ∨ (9 ≤ c ∧ c ≤ 13))

/-- ASCII lower-casing of one code point, as `String.prototype.toLowerCase`
acts on the ASCII range. -/
def toLowerN (c : ℕ) : ℕ := if 65 ≤ c ∧ c ≤ 90 then c + 32 else c

/-- `text.toLowerCase()`. -/
def lowerText (t : List ℕ) : List ℕ := t.map toLowerN

/-- Accumulator-style splitter underlying `runsOf`: splits a character list
into the maximal runs of characters satisfying `p` (the runs `match` with a
`\b…\b`-delimited class regex returns, e.g. `\b\w+\b` for `p = isWordChar`). -/
def tokAux (p : ℕ → Bool) : List ℕ → List ℕ → List (List ℕ)
  | [], acc => if acc.isEmpty then [] else [acc.reverse]
  | c :: rest, acc =>
    if p c then tokAux p rest (c :: acc)
    else if acc.isEmpty then tokAux p rest [] else acc.reverse :: tokAux p rest []

/-- Maximal runs of `p`-characters of a text. -/
def runsOf (p : ℕ → Bool) (l : List ℕ) : List (List ℕ) := tokAux p l []

/-- `normalizedText.match(/\b\w+\b/g) || []` — the token list of a text. -/
def wordsOf (l : List ℕ) : List (List ℕ) := runsOf isWordChar l

/-- Tokens of the lower-cased text, shared by all three analysis functions
(`const normalizedText = text.toLowerCase()` followed by the word match). -/
def tokensOf (t : List ℕ) : List (List ℕ) := wordsOf (lowerText t)

/-- Occurrence count of `w` in `l` (JavaScript counts every occurrence). -/
def cnt (w : List ℕ) (l : List (List ℕ)) : ℕ := l.countP (fun x => decide (x = w))

/-- Floor of a rational, computed as the floor-division of its numerator by its
(positive) denominator. -/
def ratFloor (q : ℚ) : ℤ := Int.fdiv q.num (q.den : ℤ)

/-- `Number.prototype.toFixed(2)` followed by `parseFloat`, in exact-real terms:
round to the nearest multiple of 1/100, ties to the larger value (the ECMAScript
`toFixed` specification picks the larger candidate on a tie). -/
def round2 (x : ℚ) : ℚ := (ratFloor (100 * x + 1 / 2) : ℚ) / 100

/-- The positive-affect lexicon of `analyzeSentiment`. -/
def positiveWords : List (List ℕ) :=
  [str "happy", str "joy", str "excited", str "great", str "wonderful",
   str "amazing", str "good", str "excellent", str "fantastic", str "love",
   str "loved", str "beautiful", str "grateful", str "thankful",
   str "appreciate", str "optimistic", str "positive", str "proud",
   str "accomplished", str "success", str "peaceful", str "relaxed",
   str "calm", str "hopeful", str "inspired", str "blessed", str "fun",
   str "enjoyed", str "smile", str "pleased"]

/-- The negative-affect lexicon of `analyzeSentiment`. -/
def negativeWords : List (List ℕ) :=
  [str "sad", str "angry", str "upset", str "frustrated", str "disappointed",
   str "hate", str "terrible", str "horrible", str "awful", str "bad",
   str "worried", str "anxious", str "stressed", str "depressed",
   str "miserable", str "unhappy", str "annoyed", str "fear", str "scared",
   str "tired", str "exhausted", str "lonely", str "hurt", str "pain",
   str "sorry", str "regret", str "guilty", str "ashamed", str "lost",
   str "confused", str "overwhelmed"]

/-- `analyzeSentiment(text)`: lower-case, tokenize, count lexicon hits, and
either return the neutral default (no hits) or the weighted polarity score.
The mood label is derived from the unrounded score; the returned score is the
2-decimal rounding, exactly as in the source. -/
def analyzeSentiment (text : List ℕ) : ℚ × String :=
  let words := wordsOf (lowerText text)
  let positiveCount := words.countP (fun w => decide (w ∈ positiveWords))
  let negativeCount := words.countP (fun w => decide (w ∈ negativeWords))
  let totalWords := words.length
  let totalSentimentWords := positiveCount + negativeCount
  if totalSentimentWords = 0 then (0, "Neutral")
  else
    let score : ℚ :=
      (((positiveCount : ℚ) - (negativeCount : ℚ)) / (totalSentimentWords : ℚ)) *
        ((totalSentimentWords : ℚ) / (min totalWords 100 : ℕ))
    let mood : String :=
      if 1 / 2 ≤ score then "Very Positive"
      else if 1 / 10 ≤ score then "Positive"
      else if -(1 / 10) < score then "Neutral"
      else if -(1 / 2) < score then "Negative"
      else "Very Negative"
    (round2 score, mood)

/-- `"happy "` repeated `n` times: the repeated-positive-word input family. -/
def repWS : ℕ → List ℕ → List ℕ
  | 0, _ => []
  | n + 1, w => w ++ 32 :: repWS n w

/-- The fixed canonical keyword map of `suggestCategories`, in source order. -/
def categoryKeywords : List (List ℕ × List (List ℕ)) :=
  [(str "Work", [str "work", str "job", str "career", str "office",
      str "project", str "meeting", str "deadline", str "colleague",
      str "boss", str "professional"]),
   (str "Personal", [str "personal", str "self", str "reflection",
      str "growth", str "identity", str "goal", str "dream", str "plan",
      str "future"]),
   (str "Family", [str "family", str "parent", str "child", str "kid",
      str "mom", str "dad", str "brother", str "sister", str "spouse",
      str "relative", str "home"]),
   (str "Health", [str "health", str "fitness", str "exercise", str "diet",
      str "workout", str "run", str "gym", str "doctor", str "medicine",
      str "symptom", str "illness"]),
   (str "Travel", [str "travel", str "trip", str "vacation", str "journey",
      str "adventure", str "explore", str "destination", str "flight",
      str "hotel", str "tourist"]),
   (str "Finance", [str "money", str "finance", str "budget", str "expense",
      str "income", str "saving", str "investment", str "debt",
      str "purchase", str "cost"]),
   (str "Education", [str "study", str "learn", str "school", str "college",
      str "university", str "class", str "course", str "exam", str "teacher",
      str "student", str "book"]),
   (str "Creative", [str "creative", str "art", str "music", str "write",
      str "paint", str "draw", str "design", str "craft", str "project",
      str "create", str "imagination"]),
   (str "Spiritual", [str "spiritual", str "meditation", str "prayer",
      str "faith", str "belief", str "religion", str "soul", str "meaning",
      str "purpose", str "mindful"]),
   (str "Social", [str "friend", str "social", str "party", str "gathering",
      str "conversation", str "meetup", str "relationship", str "community",
      str "network", str "connection"])]

/-- Association-list lookup by exact key, the record lookup
`relevanceScores[category.name]` / `categoryKeywords[label]`. -/
def lookupA {α : Type} (k : List ℕ) : List (List ℕ × α) → Option α
  | [] => none
  | (k', v) :: rest => if k = k' then some v else lookupA k rest

/-- Does `s` start with `p`? (helper for the substring test). -/
def beginsWith : List ℕ → List ℕ → Bool
  | [], _ => true
  | _ :: _, [] => false
  | a :: as, b :: bs => decide (a = b) && beginsWith as bs

/-- `s.includes(p)`: does `p` occur as a contiguous substring of `s`?
(JavaScript `String.prototype.includes`; the empty pattern always matches.) -/
def hasSub (p : List ℕ) : List ℕ → Bool
  | [] => beginsWith p []
  | c :: rest => beginsWith p (c :: rest) || hasSub p rest

/-- Total whole-word match count of a keyword list against the token list of
the lower-cased text.  In the source each keyword `k` is counted with
`normalizedText.match(new RegExp("\\b" + k + "\\b", "gi")).length`; since every
keyword consists solely of word characters, the `\b`-delimited matches of `k`
are exactly the tokens equal to `k`, so the regex count is the token count. -/
def matchesOf (ntoks : List (List ℕ)) (kws : List (List ℕ)) : ℕ :=
  (kws.map (fun k => cnt k ntoks)).sum

/-- The computed relevance-score record of `suggestCategories`: one entry per
canonical label with a positive match count (`if (matches > 0)`); the entry
retains the match count, from which the stored score `m / sqrt(len/100)` is
reconstructed at its two use sites (truthiness test and rounding). -/
def relevanceScores (text : List ℕ) : List (List ℕ × ℕ) :=
  categoryKeywords.filterMap fun p =>
    if 0 < matchesOf (tokensOf text) p.2 then
      some (p.1, matchesOf (tokensOf text) p.2)
    else none

/-- Binary search for the integer square root: maintains `lo² ≤ n < hi²` and
halves the interval, the fuel argument (structural, amply `n + 1`) only bounds
the number of steps. -/
def sqrtSearch (n : ℕ) : ℕ → ℕ → ℕ → ℕ
  | 0, lo, _ => lo
  | fuel + 1, lo, hi =>
    if hi ≤ lo + 1 then lo
    else
      let mid := (lo + hi) / 2
      if mid * mid ≤ n then sqrtSearch n fuel mid hi
      else sqrtSearch n fuel lo mid

/-- Integer square root: the greatest `j` with `j² ≤ n`. -/
def natSqrt (n : ℕ) : ℕ := sqrtSearch n (n + 1) 0 (n + 1)

/-- The 2-decimal rounding of the stored canonical score
`m / Math.sqrt(len / 100) = 1000·m / (100·sqrt(len))`, computed exactly over ℕ.
`toFixed(2)` returns the integer `k` (of hundredths) nearest to
`1000·m / sqrt(len)`, ties to the larger value, i.e. the greatest `k` with
`(2k - 1) ≤ 2000·m / sqrt(len)`, i.e. with `(2k-1)² · len ≤ 4000000·m²`.
Writing `j := natSqrt (4000000·m² / len)` (the greatest `j` with
`j²·len ≤ 4000000·m²`, floor division being exact here because `j²` is an
integer), that greatest `k` is `(j + 1) / 2`. -/
def round2k (m len : ℕ) : ℕ :=
  if len = 0 then 0 else (natSqrt (4000000 * m ^ 2 / len) + 1) / 2

/-- A category recommendation `{ id, name, relevance }`. -/
structure Recommendation where
  id : List ℕ
  name : List ℕ
  relevance : ℚ
deriving DecidableEq

/-- The relevance assigned to one catalog entry by the `.map` step of
`suggestCategories`, rounding included:
`parseFloat((relevanceScores[name] || (normalized.includes(name.toLowerCase()) ? 0.5 : 0)).toFixed(2))`.
The stored canonical scores are strictly positive, so the `||` falls through
exactly when the record has no entry for the name. -/
def assignedRelevance (text : List ℕ) (name : List ℕ) : ℚ :=
  match lookupA name (relevanceScores text) with
  | some m => (round2k m text.length : ℚ) / 100
  | none => if hasSub (lowerText name) (lowerText text) then 1 / 2 else 0

/-- Stable descending insertion with respect to a rational key: `x` is placed
in front of the first element whose key does not exceed `x`'s, so elements
with equal keys keep their original relative order — the behaviour of the
(stable) `Array.prototype.sort` with comparator `(a, b) => key(b) - key(a)`. -/
def insertKeyDesc {α : Type} (key : α → ℚ) (x : α) : List α → List α
  | [] => [x]
  | y :: ys => if key y ≤ key x then x :: y :: ys else y :: insertKeyDesc key x ys

/-- Stable descending sort by a rational key (see `insertKeyDesc`). -/
def sortKeyDesc {α : Type} (key : α → ℚ) : List α → List α
  | [] => []
  | x :: xs => insertKeyDesc key x (sortKeyDesc key xs)

/-- `suggestCategories(text)` over an explicit category catalog (the list of
`{id, name}` rows `prisma.category.findMany()` supplies): assign each catalog
entry its rounded relevance, keep the strictly positive ones, sort descending
by relevance, and take the top 3. -/
def suggestCategories (text : List ℕ) (catalog : List (List ℕ × List ℕ)) :
    List Recommendation :=
  ((((catalog.map fun c =>
        Recommendation.mk c.1 c.2 (assignedRelevance text c.2)).filter
      fun r => decide (0 < r.relevance)) |> sortKeyDesc (·.relevance)).take 3)

/-- The stop-word set of `extractThemes`. -/
def stopWords : List (List ℕ) :=
  [str "the", str "and", str "to", str "of", str "a", str "in", str "for",
   str "is", str "on", str "that", str "by", str "this", str "with", str "i",
   str "you", str "it", str "not", str "or", str "be", str "are", str "from",
   str "at", str "as", str "your", str "have", str "more", str "an",
   str "was", str "were", str "they", str "will", str "there", str "their",
   str "what", str "all", str "when", str "up", str "out", str "about",
   str "who", str "get", str "which", str "go", str "me", str "one",
   str "my", str "would", str "very", str "just", str "can"]

/-- The token filter of `extractThemes`: not a stop word and longer than 3. -/
def keepTheme (w : List ℕ) : Bool := decide (w ∉ stopWords) && decide (3 < w.length)

/-- The tokens `extractThemes` actually counts. -/
def filteredTokens (t : List ℕ) : List (List ℕ) := (tokensOf t).filter keepTheme

/-- One frequency-record update `wordCounts[word] = (wordCounts[word] || 0) + 1`:
bump the existing entry, or append a fresh one. -/
def bump : List (List ℕ × ℕ) → List ℕ → List (List ℕ × ℕ)
  | [], x => [(x, 1)]
  | (y, c) :: rest, x =>
    if y = x then (y, c + 1) :: rest else (y, c) :: bump rest x

/-- The frequency record built by the `forEach` loop, as an association list in
key-insertion order. -/
def countFold (l : List (List ℕ)) : List (List ℕ × ℕ) := l.foldl bump []

/-- The distinct elements of `l` in order of first occurrence. -/
def firstSeen : List (List ℕ) → List (List ℕ)
  | [] => []
  | x :: xs => x :: (firstSeen xs).filter fun y => decide (y ≠ x)

/-- Index of the first occurrence of `w` in `l` (length of `l` if absent). -/
def posOf (w : List ℕ) : List (List ℕ) → ℕ
  | [] => 0
  | x :: xs => if x = w then 0 else posOf w xs + 1

/-- Numeric value of a digit string. -/
def natOfDigits (w : List ℕ) : ℕ := w.foldl (fun a d => a * 10 + (d - 48)) 0

/-- Is `w` a canonical array-index property key in the ECMAScript sense: a
digit string with no leading zero (other than `"0"` itself) whose numeric
value is below 2³² − 1?  `Object.entries` lists such keys first, in ascending
numeric order, before the remaining string keys in insertion order. -/
def isIdxKey (w : List ℕ) : Bool :=
  decide (w ≠ []) && w.all (fun d => decide (48 ≤ d ∧ d ≤ 57)) &&
    (decide (w.head? ≠ some 48) || decide (w = [48])) &&
    decide (natOfDigits w < 4294967295)

/-- Ascending insertion by numeric key value (for the array-index keys). -/
def insertValAsc (x : List ℕ × ℕ) : List (List ℕ × ℕ) → List (List ℕ × ℕ)
  | [] => [x]
  | y :: ys =>
    if natOfDigits x.1 ≤ natOfDigits y.1 then x :: y :: ys
    else y :: insertValAsc x ys

/-- Ascending sort by numeric key value (for the array-index keys). -/
def sortValAsc : List (List ℕ × ℕ) → List (List ℕ × ℕ)
  | [] => []
  | x :: xs => insertValAsc x (sortValAsc xs)

/-- `Object.entries(record)`: array-index keys first in ascending numeric
order, then the remaining keys in insertion order. -/
def recordEntries (E : List (List ℕ × ℕ)) : List (List ℕ × ℕ) :=
  sortValAsc (E.filter fun e => isIdxKey e.1) ++
    E.filter fun e => !isIdxKey e.1

/-- `extractThemes(text)`: count the filtered tokens, sort the record entries
by descending count (stable), keep the top 5 and return the words. -/
def extractThemes (t : List ℕ) : List (List ℕ) :=
  (((sortKeyDesc (fun e => ((e.2 : ℕ) : ℚ))
        (recordEntries (countFold (filteredTokens t)))).take 5).map fun e => e.1)

/-- `content.trim().split(/\s+/).filter(Boolean).length`: the number of
maximal non-whitespace runs of the content. -/
def wordCount (t : List ℕ) : ℕ := (runsOf (fun c => !wsChar c) t).length

/-- The composed analysis payload of a successful request. -/
structure AnalysisResult where
  sentiment : ℚ × String
  categoryRecommendations : List Recommendation
  themes : List (List ℕ)
  wordCount : ℕ
  insight : List ℕ
deriving DecidableEq

/-- The insight string synthesized by the handler. -/
def insightOf (sentiment : ℚ × String) (recs : List Recommendation)
    (themes : List (List ℕ)) : List ℕ :=
  str "Based on your entry, " ++
    (if sentiment.2 ≠ "Neutral" then
        str "your mood appears to be " ++ lowerText (str sentiment.2) ++ str ". "
      else []) ++
    (if recs ≠ [] then
        str "This entry seems to focus on themes related to " ++
          (List.intercalate (str ", ") (recs.map fun r => lowerText r.name)) ++
          str ". "
      else []) ++
    (if themes ≠ [] then
        str "Key topics include: " ++ List.intercalate (str ", ") themes ++ str "."
      else [])

/-- The full per-request analysis the handler computes on validated content. -/
def analyze (content : List ℕ) (catalog : List (List ℕ × List ℕ)) :
    AnalysisResult :=
  let sentiment := analyzeSentiment content
  let recs := suggestCategories content catalog
  let themes := extractThemes content
  { sentiment := sentiment
    categoryRecommendations := recs
    themes := themes
    wordCount := wordCount content
    insight := insightOf sentiment recs themes }

/-- A response of the route handler: HTTP status plus body. -/
inductive Response
  | unauthorized
  | invalidInput
  | ok (result : AnalysisResult)
deriving DecidableEq

/-- The `POST` route handler: 401 without an authenticated session; 400 when
the body has no string `content` field or `content` fails the schema's
`min(1)` length check (no trimming); otherwise 200 with the analysis.
`authed` abstracts `getServerSession` yielding a session with a user, and
`body` is the request's `content` field when present and a string. -/
def POST (authed : Bool) (body : Option (List ℕ))
    (catalog : List (List ℕ × List ℕ)) : ℕ × Response :=
  if !authed then (401, Response.unauthorized)
  else
    match body with
    | none => (400, Response.invalidInput)
    | some content =>
      if 1 ≤ content.length then (200, Response.ok (analyze content catalog))
      else (400, Response.invalidInput)

example : wordsOf (str "a_1, b!") = [str "a_1", str "b"] := by decide
example : extractThemes (str "mountain river the with mountain") =
    [str "mountain", str "river"] := by with_unfolding_all decide
example : extractThemes (str "aaaa 1234 aaaa 1234") =
    [str "1234", str "aaaa"] := by with_unfolding_all decide
example : wordCount (str "  two words  ") = 2 := by decide
example : POST true (some (str " ")) [] = (200, Response.ok (analyze (str " ") [])) := by
  with_unfolding_all decide
set_option maxRecDepth 8000 in
example : suggestCategories (str "work") [(str "c1", str "Work")] =
    [⟨str "c1", str "Work", 5⟩] := by with_unfolding_all decide
set_option maxRecDepth 8000 in
example : suggestCategories (str "workplace") [(str "c1", str "Work")] =
    [⟨str "c1", str "Work", 1 / 2⟩] := by with_unfolding_all decide
example : suggestCategories (str "anything") [] = [] := rfl
example : analyzeSentiment (str "xyz") = (0, "Neutral") := by decide
example : analyzeSentiment (str "happy sad sad day") = (-1 / 4, "Negative") := by
  with_unfolding_all decide

/-! ### Tokenizer lemmas -/

theorem tokAux_nil_of_all_false {p : ℕ → Bool} {pad : List ℕ}
    (h : ∀ c ∈ pad, p c = false) : tokAux p pad [] = [] := by
  induction pad with
  | nil => rfl
  | cons c cs ih =>
    have hc : p c = false := h c (by simp)
    simp only [tokAux, hc, Bool.false_eq_true, if_false, List.isEmpty_nil, if_true]
    exact ih fun d hd => h d (by simp [hd])

theorem tokAux_append_all_false {p : ℕ → Bool} {pad : List ℕ}
    (h : ∀ c ∈ pad, p c = false) :
    ∀ (l : List ℕ) (acc : List ℕ), tokAux p (l ++ pad) acc = tokAux p l acc := by
  intro l
  induction l with
  | nil =>
    intro acc
    cases pad with
    | nil => rfl
    | cons c cs =>
      have hc : p c = false := h c (by simp)
      have hcs : ∀ d ∈ cs, p d = false := fun d hd => h d (by simp [hd])
      cases acc with
      | nil =>
        simp only [List.nil_append, tokAux, hc, Bool.false_eq_true, if_false,
          List.isEmpty_nil, if_true]
        exact tokAux_nil_of_all_false hcs
      | cons a as =>
        simp only [List.nil_append, tokAux, hc, Bool.false_eq_true, if_false,
          List.isEmpty_cons, Bool.false_eq_true]
        rw [tokAux_nil_of_all_false hcs]
  | cons c cs ih =>
    intro acc
    rw [List.cons_append]
    by_cases hc : p c
    · simp only [tokAux, if_pos hc]
      exact ih (c :: acc)
    · simp only [tokAux, if_neg hc]
      cases acc with
      | nil =>
        simp only [List.isEmpty_nil, if_true]
        exact ih []
      | cons a as =>
        simp only [List.isEmpty_cons, Bool.false_eq_true, if_false]
        rw [ih []]

theorem tokAux_prepad {p : ℕ → Bool} {pad : List ℕ}
    (h : ∀ c ∈ pad, p c = false) (l : List ℕ) :
    tokAux p (pad ++ l) [] = tokAux p l [] := by
  induction pad with
  | nil => rfl
  | cons c cs ih =>
    have hc : p c = false := h c (by simp)
    simp only [List.cons_append, tokAux, hc, Bool.false_eq_true, if_false,
      List.isEmpty_nil, if_true]
    exact ih fun d hd => h d (by simp [hd])

theorem runsOf_nil_of_all_false {p : ℕ → Bool} {l : List ℕ}
    (h : ∀ c ∈ l, p c = false) : runsOf p l = [] :=
  tokAux_nil_of_all_false h

theorem runsOf_pad {p : ℕ → Bool} {pre post : List ℕ}
    (hpre : ∀ c ∈ pre, p c = false) (hpost : ∀ c ∈ post, p c = false)
    (l : List ℕ) : runsOf p (pre ++ l ++ post) = runsOf p l := by
  unfold runsOf
  rw [List.append_assoc, tokAux_prepad hpre, tokAux_append_all_false hpost]

theorem isWordChar_toLowerN (c : ℕ) : isWordChar (toLowerN c) = isWordChar c := by
  unfold toLowerN isWordChar
  by_cases h : 65 ≤ c ∧ c ≤ 90
  · simp only [if_pos h, decide_eq_decide]
    omega
  · simp only [if_neg h]

theorem wsChar_not_word {c : ℕ} (h : wsChar c = true) : isWordChar c = false := by
  unfold wsChar at h
  unfold isWordChar
  simp only [decide_eq_true_eq] at h
  simp only [decide_eq_false_iff_not]
  omega

theorem toLowerN_ws {c : ℕ} (h : wsChar c = true) : toLowerN c = c := by
  unfold wsChar at h
  unfold toLowerN
  simp only [decide_eq_true_eq] at h
  have : ¬(65 ≤ c ∧ c ≤ 90) := by omega
  simp [this]

/-! ### Sentiment lemmas -/

theorem analyzeSentiment_eq_of_words_eq {t t' : List ℕ}
    (h : wordsOf (lowerText t) = wordsOf (lowerText t')) :
    analyzeSentiment t = analyzeSentiment t' := by
  unfold analyzeSentiment
  rw [h]

/-! ### Sentiment claims -/

/-- Claim C6: for every text containing zero occurrences of positive- or
negative-lexicon words, `analyzeSentiment` returns exactly score 0 and mood
"Neutral"; the division branch is not reached (the function returns from the
zero-hit guard), and the function is total on all inputs. -/
theorem analyzeSentiment_neutral_of_no_hits (t : List ℕ)
    (h : ∀ w ∈ wordsOf (lowerText t), w ∉ positiveWords ∧ w ∉ negativeWords) :
    analyzeSentiment t = (0, "Neutral") := by
  have hp : (wordsOf (lowerText t)).countP (fun w => decide (w ∈ positiveWords)) = 0 := by
    rw [List.countP_eq_zero]
    intro a ha
    simp only [decide_eq_true_eq]
    exact (h a ha).1
  have hn : (wordsOf (lowerText t)).countP (fun w => decide (w ∈ negativeWords)) = 0 := by
    rw [List.countP_eq_zero]
    intro a ha
    simp only [decide_eq_true_eq]
    exact (h a ha).2
  unfold analyzeSentiment
  simp [hp, hn]

/-- Witness for C6 at a concrete lexicon-free text. -/
theorem analyzeSentiment_neutral_of_no_hits_witness :
    analyzeSentiment (str "lorem ipsum dolor") = (0, "Neutral") :=
  analyzeSentiment_neutral_of_no_hits (str "lorem ipsum dolor") (by decide)

/-- Claim C9: `analyzeSentiment` is invariant to letter case anywhere in the
input (texts with equal lower-casings get identical results) and to
leading/trailing punctuation or whitespace padding (non-word characters);
both the returned score and the returned mood are unchanged. -/
theorem analyzeSentiment_case_and_padding_invariant :
    (∀ t t' : List ℕ, lowerText t = lowerText t' →
      analyzeSentiment t = analyzeSentiment t') ∧
    (∀ t lead trail : List ℕ,
      (∀ c ∈ lead, isWordChar c = false) →
      (∀ c ∈ trail, isWordChar c = false) →
      analyzeSentiment (lead ++ t ++ trail) = analyzeSentiment t) := by
  constructor
  · intro t t' h
    exact analyzeSentiment_eq_of_words_eq (by rw [h])
  · intro t lead trail hl ht
    apply analyzeSentiment_eq_of_words_eq
    show runsOf isWordChar (lowerText (lead ++ t ++ trail)) =
      runsOf isWordChar (lowerText t)
    unfold lowerText
    rw [List.map_append, List.map_append]
    refine runsOf_pad ?_ ?_ _
    · intro c hc
      rcases List.mem_map.mp hc with ⟨d, hd, rfl⟩
      rw [isWordChar_toLowerN]
      exact hl d hd
    · intro c hc
      rcases List.mem_map.mp hc with ⟨d, hd, rfl⟩
      rw [isWordChar_toLowerN]
      exact ht d hd

/-- Witness for C9: a concrete case change and a concrete padding. -/
theorem analyzeSentiment_case_and_padding_invariant_witness :
    analyzeSentiment (str "Happy DAY") = analyzeSentiment (str "hAPPY day") ∧
    analyzeSentiment (str "!! " ++ str "happy day" ++ str "..") =
      analyzeSentiment (str "happy day") := by
  constructor
  · exact analyzeSentiment_case_and_padding_invariant.1 _ _ (by decide)
  · exact analyzeSentiment_case_and_padding_invariant.2 _ _ _ (by decide) (by decide)

/-- Claim C1 is refuted by the code: for the text "happy " repeated 200 times
(200 words, all positive), the length normalization divides by
`min(totalWords, 100) = 100` while the sentiment count is 200, so the
returned score is `(200/200) * (200/100) = 2`, outside `[-1, 1]` — contrary
to the source's own comment "Calculate sentiment score between -1 and 1". -/
theorem analyzeSentiment_score_two_on_repeated_happy :
    analyzeSentiment (repWS 200 (str "happy")) = (2, "Very Positive") ∧
    1 < (analyzeSentiment (repWS 200 (str "happy"))).1 := by
  have h : analyzeSentiment (repWS 200 (str "happy")) = (2, "Very Positive") := by
    set_option maxRecDepth 8000 in with_unfolding_all decide
  refine ⟨h, ?_⟩
  rw [h]
  norm_num

/-! ### Stable-sort lemmas -/

theorem mem_insertKeyDesc {α : Type} (key : α → ℚ) (x : α) (l : List α) (a : α) :
    a ∈ insertKeyDesc key x l ↔ a = x ∨ a ∈ l := by
  induction l with
  | nil => simp [insertKeyDesc]
  | cons y ys ih =>
    unfold insertKeyDesc
    by_cases h : key y ≤ key x
    · rw [if_pos h]
      simp only [List.mem_cons]
    · rw [if_neg h]
      simp only [List.mem_cons, ih]
      tauto

theorem insertKeyDesc_perm {α : Type} (key : α → ℚ) (x : α) (l : List α) :
    List.Perm (insertKeyDesc key x l) (x :: l) := by
  induction l with
  | nil => exact List.Perm.refl _
  | cons y ys ih =>
    unfold insertKeyDesc
    by_cases h : key y ≤ key x
    · rw [if_pos h]
    · rw [if_neg h]
      exact List.Perm.trans (List.Perm.cons y ih) (List.Perm.swap x y ys)

theorem sortKeyDesc_perm {α : Type} (key : α → ℚ) (l : List α) :
    List.Perm (sortKeyDesc key l) l := by
  induction l with
  | nil => exact List.Perm.refl _
  | cons x xs ih =>
    unfold sortKeyDesc
    exact List.Perm.trans (insertKeyDesc_perm key x _) (List.Perm.cons x ih)

theorem insertKeyDesc_pairwise {α : Type} {key : α → ℚ} {Q : α → α → Prop}
    {x : α} {l : List α}
    (hl : l.Pairwise fun a b => key b < key a ∨ (key a = key b ∧ Q a b))
    (hx : ∀ y ∈ l, Q x y) :
    (insertKeyDesc key x l).Pairwise
      fun a b => key b < key a ∨ (key a = key b ∧ Q a b) := by
  induction l with
  | nil => simp [insertKeyDesc]
  | cons y ys ih =>
    rcases List.pairwise_cons.mp hl with ⟨hy, hys⟩
    unfold insertKeyDesc
    by_cases h : key y ≤ key x
    · rw [if_pos h]
      refine List.pairwise_cons.mpr ⟨?_, hl⟩
      intro z hz
      rcases List.mem_cons.mp hz with rfl | hz'
      · rcases lt_or_eq_of_le h with hlt | heq
        · exact Or.inl hlt
        · exact Or.inr ⟨heq.symm, hx z (by simp)⟩
      · rcases hy z hz' with hlt | ⟨heq, _⟩
        · exact Or.inl (lt_of_lt_of_le hlt h)
        · rcases lt_or_eq_of_le h with hlt2 | heq2
          · exact Or.inl (heq ▸ hlt2)
          · refine Or.inr ⟨?_, hx z (by simp [hz'])⟩
            rw [← heq2]
            exact heq
    · rw [if_neg h]
      refine List.pairwise_cons.mpr
        ⟨?_, ih hys fun z hz => hx z (by simp [hz])⟩
      intro z hz
      rcases (mem_insertKeyDesc key x ys z).mp hz with rfl | hz'
      · exact Or.inl (not_le.mp h)
      · exact hy z hz'

theorem sortKeyDesc_pairwise {α : Type} {key : α → ℚ} {Q : α → α → Prop}
    {l : List α} (hl : l.Pairwise Q) :
    (sortKeyDesc key l).Pairwise
      fun a b => key b < key a ∨ (key a = key b ∧ Q a b) := by
  induction l with
  | nil => simp [sortKeyDesc]
  | cons x xs ih =>
    rcases List.pairwise_cons.mp hl with ⟨hx, hxs⟩
    unfold sortKeyDesc
    refine insertKeyDesc_pairwise (ih hxs) ?_
    intro y hy
    exact hx y ((sortKeyDesc_perm key xs).mem_iff.mp hy)

theorem pairwise_trivial {α : Type} (l : List α) :
    l.Pairwise fun _ _ => True := by
  induction l with
  | nil => exact List.Pairwise.nil
  | cons x xs ih => exact List.Pairwise.cons (fun _ _ => trivial) ih

/-! ### Category-recommendation lemmas -/

theorem relevance_mk (i n : List ℕ) (q : ℚ) :
    (Recommendation.mk i n q).relevance = q := rfl

theorem mem_suggestCategories {t : List ℕ} {catalog : List (List ℕ × List ℕ)}
    {r : Recommendation} (h : r ∈ suggestCategories t catalog) :
    0 < r.relevance ∧
      ∃ c ∈ catalog, r = Recommendation.mk c.1 c.2 (assignedRelevance t c.2) := by
  unfold suggestCategories at h
  have h1 := List.take_subset 3 _ h
  have h2 := (sortKeyDesc_perm (fun r : Recommendation => r.relevance) _).mem_iff.mp h1
  rw [List.mem_filter] at h2
  obtain ⟨h3, h4⟩ := h2
  rw [List.mem_map] at h3
  obtain ⟨c, hc, rfl⟩ := h3
  exact ⟨of_decide_eq_true h4, c, hc, rfl⟩

theorem assignedRelevance_cases (t name : List ℕ) :
    ∃ k : ℕ, assignedRelevance t name = (k : ℚ) / 100 := by
  unfold assignedRelevance
  cases h : lookupA name (relevanceScores t) with
  | some m => exact ⟨round2k m t.length, rfl⟩
  | none =>
    by_cases hs : hasSub (lowerText name) (lowerText t)
    · refine ⟨50, ?_⟩
      rw [if_pos hs]
      norm_num
    · refine ⟨0, ?_⟩
      rw [if_neg hs]
      norm_num

/-- Claim C4: `suggestCategories` returns at most 3 recommendations, sorted in
descending order of relevance, each with relevance strictly greater than 0;
and on an empty catalog it returns the empty list for any text. -/
theorem suggestCategories_top3_sorted_pos :
    ∀ (t : List ℕ) (catalog : List (List ℕ × List ℕ)),
      (suggestCategories t catalog).length ≤ 3 ∧
      (suggestCategories t catalog).Pairwise
        (fun a b => b.relevance ≤ a.relevance) ∧
      (∀ r ∈ suggestCategories t catalog, 0 < r.relevance) ∧
      suggestCategories t [] = [] := by
  intro t catalog
  refine ⟨?_, ?_, ?_, rfl⟩
  · exact List.length_take_le 3 _
  · unfold suggestCategories
    have hp := @sortKeyDesc_pairwise Recommendation
      (fun r : Recommendation => r.relevance) (fun _ _ => True) _
      (pairwise_trivial ((catalog.map fun c =>
        Recommendation.mk c.1 c.2 (assignedRelevance t c.2)).filter
          fun r => decide (0 < r.relevance)))
    have hp2 := hp.imp fun {a b} hab =>
      hab.elim le_of_lt (fun hh => le_of_eq hh.1.symm)
    exact hp2.sublist (List.take_sublist 3 _)
  · intro r hr
    exact (mem_suggestCategories hr).1

/-- Witness for C4 at a concrete text and catalog. -/
theorem suggestCategories_top3_sorted_pos_witness :
    (suggestCategories (str "job") [(str "c1", str "Work")]).length ≤ 3 ∧
    (0 : ℚ) < (Recommendation.mk (str "c1") (str "Work") (577 / 100)).relevance ∧
    suggestCategories (str "job") [] = [] :=
  ⟨(suggestCategories_top3_sorted_pos (str "job") [(str "c1", str "Work")]).1,
   (suggestCategories_top3_sorted_pos (str "job") [(str "c1", str "Work")]).2.2.1 _
     (by set_option maxRecDepth 8000 in with_unfolding_all decide),
   (suggestCategories_top3_sorted_pos (str "job") []).2.2.2⟩

/-- Claim C3 is refuted: for the four-character text "work" the Work category
matches one keyword and the length normalization gives
`1 / sqrt(4/100) = 5`, so the returned relevance is 5, far outside `[0, 1]`. -/
theorem suggestCategories_relevance_above_one :
    ¬ (∀ r ∈ suggestCategories (str "work") [(str "c1", str "Work")],
        r.relevance ≤ 1) := by
  intro h
  have h5 := h (Recommendation.mk (str "c1") (str "Work") 5)
    (by with_unfolding_all decide)
  norm_num at h5

/-- Claim C3 amended: every relevance returned by `suggestCategories` is
nonnegative (indeed strictly positive); the upper bound 1 of the original
claim does not hold in general. -/
theorem suggestCategories_relevance_nonneg :
    ∀ (t : List ℕ) (catalog : List (List ℕ × List ℕ)),
      ∀ r ∈ suggestCategories t catalog, 0 ≤ r.relevance := by
  intro t catalog r hr
  exact le_of_lt (mem_suggestCategories hr).1

/-- Witness for the amended C3 at a concrete fallback-scored category. -/
theorem suggestCategories_relevance_nonneg_witness :
    (0 : ℚ) ≤ (Recommendation.mk (str "c1") (str "Work") (1 / 2)).relevance :=
  suggestCategories_relevance_nonneg (str "workplace") [(str "c1", str "Work")] _
    (by with_unfolding_all decide)

/-- Claim C10: every returned relevance is at least 0.01 — the 2-decimal
rounding happens before the strict-positivity filter, so every surviving
relevance is a positive integer number of hundredths. -/
theorem suggestCategories_relevance_ge_centi :
    ∀ (t : List ℕ) (catalog : List (List ℕ × List ℕ)),
      ∀ r ∈ suggestCategories t catalog, 1 / 100 ≤ r.relevance := by
  intro t catalog r hr
  obtain ⟨hpos, c, hc, rfl⟩ := mem_suggestCategories hr
  obtain ⟨k, hk⟩ := assignedRelevance_cases t c.2
  rw [relevance_mk] at hpos ⊢
  rw [hk] at hpos ⊢
  have hk1 : 1 ≤ k := by
    rcases Nat.eq_zero_or_pos k with rfl | h1
    · norm_num at hpos
    · exact h1
  have hcast : (1 : ℚ) ≤ (k : ℚ) := by exact_mod_cast hk1
  linarith

/-- Witness for C10 at a concrete keyword-scored category. -/
theorem suggestCategories_relevance_ge_centi_witness :
    (1 : ℚ) / 100 ≤ (Recommendation.mk (str "c1") (str "Work") (267 / 100)).relevance :=
  suggestCategories_relevance_ge_centi (str "happy work day")
    [(str "c1", str "Work")] _ (by with_unfolding_all decide)

/-! ### Canonical-score lookup analysis (claim C2) -/

theorem lookupA_eq_none {α : Type} {k : List ℕ} {L : List (List ℕ × α)}
    (h : ∀ p ∈ L, p.1 ≠ k) : lookupA k L = none := by
  induction L with
  | nil => rfl
  | cons e es ih =>
    obtain ⟨k', v⟩ := e
    unfold lookupA
    rw [if_neg fun heq : k = k' => (h (k', v) (by simp)) heq.symm]
    exact ih fun p hp => h p (by simp [hp])

theorem lookupA_filterMap_scores (toks : List (List ℕ)) (name : List ℕ) :
    ∀ L : List (List ℕ × List (List ℕ)), (L.map Prod.fst).Nodup →
      lookupA name (L.filterMap fun p =>
          if 0 < matchesOf toks p.2 then some (p.1, matchesOf toks p.2)
          else none) =
        match lookupA name L with
        | none => none
        | some kws =>
          if 0 < matchesOf toks kws then some (matchesOf toks kws) else none := by
  intro L
  induction L with
  | nil => intro _; rfl
  | cons e es ih =>
    intro hnd
    obtain ⟨k', kws⟩ := e
    have hk' : k' ∉ es.map Prod.fst := (List.nodup_cons.mp hnd).1
    have hnd' : (es.map Prod.fst).Nodup := (List.nodup_cons.mp hnd).2
    by_cases hname : name = k'
    · subst hname
      by_cases hm : 0 < matchesOf toks kws
      · simp [List.filterMap_cons, lookupA, hm]
      · simp [List.filterMap_cons, lookupA, hm]
        apply lookupA_eq_none
        intro p hp
        rcases List.mem_filterMap.mp hp with ⟨q, hq, hfq⟩
        by_cases hmq : 0 < matchesOf toks q.2
        · rw [if_pos hmq] at hfq
          cases hfq
          intro hqname
          exact hk' (hqname ▸ List.mem_map_of_mem Prod.fst hq)
        · rw [if_neg hmq] at hfq
          cases hfq
    · by_cases hm : 0 < matchesOf toks kws
      · simp only [List.filterMap_cons, if_pos hm, lookupA]
        rw [if_neg hname, if_neg hname]
        exact ih hnd'
      · simp only [List.filterMap_cons, if_neg hm, lookupA]
        rw [if_neg hname]
        exact ih hnd'

/-- The canonical keyword-match count of a category name: the total whole-word
occurrence count, in the text, of the canonical keyword list registered under
exactly this name (0 when the name has no canonical keyword list). -/
def canonMatches (t name : List ℕ) : ℕ :=
  match lookupA name categoryKeywords with
  | some kws => matchesOf (tokensOf t) kws
  | none => 0

/-- Claim C2 amended: in the `.map` step of `suggestCategories`, the relevance
of a catalog entry is the rounded canonical keyword score exactly when the
name's canonical keyword-match count is positive (a computed-map entry
exists); the substring fallback (0.5 when the lower-cased text contains the
lower-cased name, else 0) applies exactly when the count is zero — including
for names that do have a canonical keyword list but no keyword occurrence in
the text. -/
theorem assignedRelevance_precedence :
    ∀ t name : List ℕ,
      (0 < canonMatches t name →
        assignedRelevance t name =
          (round2k (canonMatches t name) t.length : ℚ) / 100) ∧
      (canonMatches t name = 0 →
        assignedRelevance t name =
          if hasSub (lowerText name) (lowerText t) then 1 / 2 else 0) := by
  intro t name
  have hnd : (categoryKeywords.map Prod.fst).Nodup := by decide
  have hb := lookupA_filterMap_scores (tokensOf t) name categoryKeywords hnd
  cases hcw : lookupA name categoryKeywords with
  | none =>
    have hc0 : canonMatches t name = 0 := by
      unfold canonMatches
      rw [hcw]
    refine ⟨fun h0 => absurd (hc0 ▸ h0) (by norm_num), fun _ => ?_⟩
    unfold assignedRelevance relevanceScores
    rw [hb, hcw]
  | some kws =>
    have hcm : canonMatches t name = matchesOf (tokensOf t) kws := by
      unfold canonMatches
      rw [hcw]
    constructor
    · intro h0
      rw [hcm] at h0 ⊢
      unfold assignedRelevance relevanceScores
      simp only [hb, hcw, if_pos h0]
    · intro h0
      rw [hcm] at h0
      have hneg : ¬ 0 < matchesOf (tokensOf t) kws := by omega
      unfold assignedRelevance relevanceScores
      simp only [hb, hcw, if_neg hneg]

/-- Claim C2 is refuted as stated: the category name "Work" does have a
canonical keyword list, yet for the text "workplace" — which contains no
whole-word occurrence of any Work keyword, only the substring "work" — the
substring fallback fires and the category is returned with relevance 0.5
instead of a keyword-derived score. -/
theorem suggestCategories_fallback_on_canonical_name :
    (lookupA (str "Work") categoryKeywords).isSome = true ∧
    canonMatches (str "workplace") (str "Work") = 0 ∧
    suggestCategories (str "workplace") [(str "c1", str "Work")] =
      [Recommendation.mk (str "c1") (str "Work") (1 / 2)] := by
  refine ⟨by decide, by decide, ?_⟩
  set_option maxRecDepth 8000 in with_unfolding_all decide

/-- Witness for the amended C2: both branches at concrete inputs — the text
"work job" has 2 Work-keyword matches and gets the rounded canonical score,
the text "workplace" has 0 and falls back to the substring rule. -/
theorem assignedRelevance_precedence_witness :
    assignedRelevance (str "work job") (str "Work") =
      (round2k (canonMatches (str "work job") (str "Work"))
        (str "work job").length : ℚ) / 100 ∧
    assignedRelevance (str "workplace") (str "Work") =
      (if hasSub (lowerText (str "Work")) (lowerText (str "workplace"))
        then (1 : ℚ) / 2 else 0) :=
  ⟨(assignedRelevance_precedence (str "work job") (str "Work")).1 (by decide),
   (assignedRelevance_precedence (str "workplace") (str "Work")).2 (by decide)⟩

/-! ### Handler claims -/

/-- Claim C7 is refuted as stated: the schema check is `z.string().min(1)`
with no trimming, so the whitespace-only content " " passes validation and
the handler answers 200, not 400. -/
theorem POST_whitespace_ok : (POST true (some (str " ")) []).1 = 200 := rfl

/-- Claim C7 amended: the handler returns 401 when the caller is
unauthenticated; 400 when the body has no string `content` or `content` is
the empty string (the schema checks raw length ≥ 1 and does not trim, so
whitespace-only content passes); and 200 with the analysis result otherwise. -/
theorem POST_statuses :
    ∀ (authed : Bool) (body : Option (List ℕ))
      (catalog : List (List ℕ × List ℕ)),
      (authed = false → POST authed body catalog = (401, Response.unauthorized)) ∧
      (authed = true → body = none →
        POST authed body catalog = (400, Response.invalidInput)) ∧
      (authed = true → body = some [] →
        POST authed body catalog = (400, Response.invalidInput)) ∧
      (∀ content, authed = true → body = some content → content ≠ [] →
        POST authed body catalog = (200, Response.ok (analyze content catalog))) := by
  intro authed body catalog
  refine ⟨?_, ?_, ?_, ?_⟩
  · rintro rfl
    rfl
  · rintro rfl rfl
    rfl
  · rintro rfl rfl
    rfl
  · rintro content rfl rfl hne
    have hlen : 1 ≤ content.length := by
      cases content with
      | nil => exact absurd rfl hne
      | cons a as => simp
    unfold POST
    simp [hlen]

/-- Witness for the amended C7 at all four concrete outcomes. -/
theorem POST_statuses_witness :
    POST false none [] = (401, Response.unauthorized) ∧
    POST true none [] = (400, Response.invalidInput) ∧
    POST true (some []) [] = (400, Response.invalidInput) ∧
    POST true (some (str "hi")) [] = (200, Response.ok (analyze (str "hi") [])) :=
  ⟨(POST_statuses false none []).1 rfl,
   (POST_statuses true none []).2.1 rfl rfl,
   (POST_statuses true (some []) []).2.2.1 rfl rfl,
   (POST_statuses true (some (str "hi")) []).2.2.2 (str "hi") rfl rfl (by decide)⟩

/-! ### Whitespace-content lemmas (claim C8) -/

theorem wsChar_toLowerN (c : ℕ) : wsChar (toLowerN c) = wsChar c := by
  unfold toLowerN wsChar
  by_cases h : 65 ≤ c ∧ c ≤ 90
  · rw [if_pos h]
    simp only [decide_eq_decide]
    omega
  · rw [if_neg h]

theorem beginsWith_subset {p s : List ℕ} (h : beginsWith p s = true) :
    ∀ c ∈ p, c ∈ s := by
  induction p generalizing s with
  | nil =>
    intro c hc
    cases hc
  | cons a as ih =>
    cases s with
    | nil => cases h
    | cons b bs =>
      unfold beginsWith at h
      rw [Bool.and_eq_true] at h
      obtain ⟨hab, hrest⟩ := h
      have hab' : a = b := of_decide_eq_true hab
      intro c hc
      rcases List.mem_cons.mp hc with rfl | hc'
      · rw [hab']
        exact List.mem_cons_self _ _
      · exact List.mem_cons_of_mem _ (ih hrest c hc')

theorem hasSub_subset {p s : List ℕ} (h : hasSub p s = true) :
    ∀ c ∈ p, c ∈ s := by
  induction s with
  | nil => exact beginsWith_subset h
  | cons b bs ih =>
    unfold hasSub at h
    rw [Bool.or_eq_true] at h
    rcases h with h1 | h2
    · exact beginsWith_subset h1
    · intro c hc
      exact List.mem_cons_of_mem _ (ih h2 c hc)

/-- Claim C8 is refuted as stated: with a catalog containing a category whose
name is itself whitespace (" "), the substring fallback fires on the
whitespace-only content " " and the core analysis returns that category with
relevance 0.5 — the recommendations are not empty. -/
theorem analyze_whitespace_name_recommendation :
    (analyze (str " ") [(str "c1", str " ")]).categoryRecommendations =
      [Recommendation.mk (str "c1") (str " ") (1 / 2)] := by
  set_option maxRecDepth 8000 in with_unfolding_all decide

/-- Claim C8 amended: on empty or all-whitespace content the core analysis
does not fail and yields the zero-valued result — word count 0, sentiment
score 0 with mood "Neutral", empty themes, and empty category
recommendations provided every catalog name contains a non-whitespace
character (an all-whitespace or empty name can still be returned through the
substring fallback, see the counterexample); the insight is then the bare
prefix. -/
theorem analyze_zero_on_whitespace :
    ∀ (t : List ℕ) (catalog : List (List ℕ × List ℕ)),
      (∀ c ∈ t, wsChar c = true) →
      (∀ p ∈ catalog, ∃ d ∈ p.2, wsChar d = false) →
      analyze t catalog =
        { sentiment := (0, "Neutral"), categoryRecommendations := [],
          themes := [], wordCount := 0,
          insight := str "Based on your entry, " } := by
  intro t catalog hws hcat
  have hlw : ∀ c ∈ lowerText t, wsChar c = true := by
    intro c hc
    rcases List.mem_map.mp hc with ⟨d, hd, rfl⟩
    rw [wsChar_toLowerN]
    exact hws d hd
  have htok : tokensOf t = [] := by
    apply runsOf_nil_of_all_false
    intro c hc
    exact wsChar_not_word (hlw c hc)
  have hsent : analyzeSentiment t = (0, "Neutral") := by
    rw [@analyzeSentiment_eq_of_words_eq t []
      (show wordsOf (lowerText t) = wordsOf (lowerText []) from by
        rw [show wordsOf (lowerText t) = tokensOf t from rfl, htok]
        rfl)]
    decide
  have hthemes : extractThemes t = [] := by
    unfold extractThemes filteredTokens
    rw [htok]
    rfl
  have hwc : wordCount t = 0 := by
    unfold wordCount
    rw [runsOf_nil_of_all_false fun c hc => by rw [hws c hc]; rfl]
    rfl
  have hscores : relevanceScores t = [] := by
    unfold relevanceScores
    simp only [htok]
    decide
  have hrel : ∀ p : List ℕ × List ℕ, p ∈ catalog → assignedRelevance t p.2 = 0 := by
    intro p hp
    unfold assignedRelevance
    rw [hscores]
    show (if hasSub (lowerText p.2) (lowerText t) then (1 : ℚ) / 2 else 0) = 0
    rw [if_neg ?_]
    intro hsub
    obtain ⟨d, hd, hdw⟩ := hcat p hp
    have hdl : toLowerN d ∈ lowerText p.2 := List.mem_map_of_mem _ hd
    have hmem := hasSub_subset hsub _ hdl
    have hlww := hlw _ hmem
    rw [wsChar_toLowerN] at hlww
    rw [hdw] at hlww
    cases hlww
  have hsug : suggestCategories t catalog = [] := by
    unfold suggestCategories
    have hf : ((catalog.map fun c =>
        Recommendation.mk c.1 c.2 (assignedRelevance t c.2)).filter
          fun r => decide (0 < r.relevance)) = [] := by
      rw [List.filter_eq_nil_iff]
      intro r hr
      rcases List.mem_map.mp hr with ⟨c, hc, rfl⟩
      rw [relevance_mk, hrel c hc]
      norm_num
    rw [hf]
    rfl
  unfold analyze
  rw [hsent, hsug, hthemes, hwc]
  rfl

/-- Witness for the amended C8 at concrete whitespace content and a
well-formed catalog. -/
theorem analyze_zero_on_whitespace_witness :
    analyze (str "  ") [(str "c1", str "Work")] =
      { sentiment := (0, "Neutral"), categoryRecommendations := [],
        themes := [], wordCount := 0,
        insight := str "Based on your entry, " } :=
  analyze_zero_on_whitespace (str "  ") [(str "c1", str "Work")]
    (by decide) (by decide)

/-! ### Theme-extraction lemmas (claim C5): counting -/

theorem cnt_append (w : List ℕ) (l₁ l₂ : List (List ℕ)) :
    cnt w (l₁ ++ l₂) = cnt w l₁ + cnt w l₂ :=
  List.countP_append _ _ _

theorem cnt_single_self (w : List ℕ) : cnt w [w] = 1 := by
  unfold cnt
  simp [List.countP_cons]

theorem cnt_single_ne {w x : List ℕ} (h : w ≠ x) : cnt w [x] = 0 := by
  unfold cnt
  simp [List.countP_cons]
  intro heq
  exact absurd heq.symm h

theorem cnt_eq_zero_of_not_mem {w : List ℕ} {l : List (List ℕ)} (h : w ∉ l) :
    cnt w l = 0 := by
  unfold cnt
  rw [List.countP_eq_zero]
  intro a ha
  simp only [decide_eq_true_eq]
  intro heq
  exact h (heq ▸ ha)

theorem cnt_filter_of_true {w : List ℕ} {p : List ℕ → Bool} (hw : p w = true)
    (l : List (List ℕ)) : cnt w (l.filter p) = cnt w l := by
  unfold cnt
  rw [List.countP_filter]
  apply List.countP_congr
  intro a _
  by_cases ha : a = w
  · subst ha
    simp [hw]
  · simp [ha]

/-! ### Theme-extraction lemmas: first-seen order -/

theorem posOf_cons_self (w : List ℕ) (xs : List (List ℕ)) :
    posOf w (w :: xs) = 0 := by
  show (if w = w then 0 else posOf w xs + 1) = 0
  rw [if_pos rfl]

theorem posOf_cons_ne {w x : List ℕ} (h : ¬ x = w) (xs : List (List ℕ)) :
    posOf w (x :: xs) = posOf w xs + 1 := by
  show (if x = w then 0 else posOf w xs + 1) = posOf w xs + 1
  rw [if_neg h]

theorem firstSeen_mem {a : List ℕ} : ∀ {l : List (List ℕ)},
    a ∈ firstSeen l ↔ a ∈ l := by
  intro l
  induction l with
  | nil => simp [firstSeen]
  | cons x xs ih =>
    unfold firstSeen
    constructor
    · intro h
      rcases List.mem_cons.mp h with rfl | h'
      · exact List.mem_cons_self _ _
      · exact List.mem_cons_of_mem _ (ih.mp (List.mem_filter.mp h').1)
    · intro h
      by_cases hax : a = x
      · rw [hax]
        exact List.mem_cons_self _ _
      · rcases List.mem_cons.mp h with rfl | h'
        · exact absurd rfl hax
        · exact List.mem_cons_of_mem _
            (List.mem_filter.mpr ⟨ih.mpr h', by simp [hax]⟩)

theorem firstSeen_nodup : ∀ l : List (List ℕ), (firstSeen l).Nodup := by
  intro l
  induction l with
  | nil => exact List.nodup_nil
  | cons x xs ih =>
    unfold firstSeen
    refine List.nodup_cons.mpr ⟨?_, ih.filter _⟩
    intro hx
    have := (List.mem_filter.mp hx).2
    simp at this

theorem firstSeen_append_single (x : List ℕ) : ∀ l : List (List ℕ),
    firstSeen (l ++ [x]) = if x ∈ l then firstSeen l else firstSeen l ++ [x] := by
  intro l
  induction l with
  | nil => simp [firstSeen]
  | cons y ys ih =>
    rw [List.cons_append]
    show y :: (firstSeen (ys ++ [x])).filter (fun z => decide (z ≠ y)) = _
    rw [ih]
    by_cases hxl : x ∈ ys
    · rw [if_pos hxl, if_pos (List.mem_cons_of_mem y hxl)]
      rfl
    · rw [if_neg hxl]
      by_cases hxy : x = y
      · subst hxy
        rw [if_pos (List.mem_cons_self x ys)]
        rw [List.filter_append]
        have hkill : [x].filter (fun z => decide (z ≠ x)) = [] := by simp
        rw [hkill, List.append_nil]
        rfl
      · rw [if_neg (by simp [hxy, hxl] : ¬ x ∈ y :: ys)]
        rw [List.filter_append]
        have hkeep : [x].filter (fun z => decide (z ≠ y)) = [x] := by simp [hxy]
        rw [hkeep]
        rfl

theorem firstSeen_pairwise : ∀ l : List (List ℕ),
    (firstSeen l).Pairwise fun a b => posOf a l < posOf b l := by
  intro l
  induction l with
  | nil => exact List.Pairwise.nil
  | cons x xs ih =>
    unfold firstSeen
    refine List.pairwise_cons.mpr ⟨?_, ?_⟩
    · intro b hb
      have hbx : b ≠ x := by
        have := (List.mem_filter.mp hb).2
        simpa using this
      rw [posOf_cons_self, posOf_cons_ne fun h => hbx h.symm]
      omega
    · have hp : ((firstSeen xs).filter fun z => decide (z ≠ x)).Pairwise
          (fun a b => posOf a xs < posOf b xs) :=
        ih.sublist (List.filter_sublist _)
      refine hp.imp_of_mem ?_
      intro a b ha hb hab
      have hax : a ≠ x := by
        have := (List.mem_filter.mp ha).2
        simpa using this
      have hbx : b ≠ x := by
        have := (List.mem_filter.mp hb).2
        simpa using this
      rw [posOf_cons_ne fun h => hax h.symm, posOf_cons_ne fun h => hbx h.symm]
      omega

/-! ### Theme-extraction lemmas: the frequency record -/

theorem bump_not_mem {E : List (List ℕ × ℕ)} {x : List ℕ}
    (h : x ∉ E.map Prod.fst) : bump E x = E ++ [(x, 1)] := by
  induction E with
  | nil => rfl
  | cons e es ih =>
    obtain ⟨y, c⟩ := e
    rw [List.map_cons, List.mem_cons] at h
    push_neg at h
    obtain ⟨h1, h2⟩ := h
    unfold bump
    rw [if_neg fun heq => h1 heq.symm, ih h2]
    rfl

theorem map_bump_id {E : List (List ℕ × ℕ)} {x : List ℕ}
    (h : ∀ e ∈ E, ¬ e.1 = x) :
    (E.map fun e => if e.1 = x then (e.1, e.2 + 1) else e) = E := by
  induction E with
  | nil => rfl
  | cons e es ih =>
    rw [List.map_cons, if_neg (h e (List.mem_cons_self _ _)),
      ih fun e' he' => h e' (List.mem_cons_of_mem _ he')]

theorem bump_mem_nodup {E : List (List ℕ × ℕ)} {x : List ℕ}
    (hnd : (E.map Prod.fst).Nodup) (h : x ∈ E.map Prod.fst) :
    bump E x = E.map fun e => if e.1 = x then (e.1, e.2 + 1) else e := by
  induction E with
  | nil => cases h
  | cons e es ih =>
    obtain ⟨y, c⟩ := e
    rw [List.map_cons] at h hnd
    by_cases hyx : y = x
    · subst hyx
      unfold bump
      rw [if_pos rfl, List.map_cons]
      show (y, c + 1) :: es = (if y = y then (y, c + 1) else (y, c)) :: _
      rw [if_pos rfl]
      congr 1
      symm
      apply map_bump_id
      intro e' he' heq
      have hmem : e'.1 ∈ es.map Prod.fst := List.mem_map_of_mem Prod.fst he'
      rw [heq] at hmem
      exact (List.nodup_cons.mp hnd).1 hmem
    · unfold bump
      rw [if_neg hyx, List.map_cons, if_neg hyx]
      congr 1
      exact ih (List.nodup_cons.mp hnd).2
        ((List.mem_cons.mp h).resolve_left fun heq => hyx heq.symm)

theorem countFold_keys (l : List (List ℕ)) :
    ((firstSeen l).map fun w => (w, cnt w l)).map Prod.fst = firstSeen l := by
  rw [List.map_map]
  exact List.map_id' (firstSeen l)

theorem countFold_eq : ∀ l : List (List ℕ),
    countFold l = (firstSeen l).map fun w => (w, cnt w l) := by
  intro l
  induction l using List.reverseRecOn with
  | nil => rfl
  | append_singleton l x ih =>
    show (l ++ [x]).foldl bump [] = _
    rw [List.foldl_append]
    show bump (countFold l) x = _
    rw [ih, firstSeen_append_single]
    by_cases hx : x ∈ l
    · rw [if_pos hx]
      have hnd2 : (((firstSeen l).map fun w => (w, cnt w l)).map Prod.fst).Nodup := by
        rw [countFold_keys]
        exact firstSeen_nodup l
      rw [bump_mem_nodup hnd2 (by rw [countFold_keys]; exact firstSeen_mem.mpr hx)]
      rw [List.map_map]
      apply List.map_congr_left
      intro w hw
      show (if w = x then (w, cnt w l + 1) else (w, cnt w l)) = (w, cnt w (l ++ [x]))
      rw [cnt_append]
      by_cases hwx : w = x
      · subst hwx
        rw [if_pos rfl, cnt_single_self]
      · rw [if_neg hwx, cnt_single_ne hwx, Nat.add_zero]
    · rw [if_neg hx]
      rw [bump_not_mem (by rw [countFold_keys]; exact fun hm => hx (firstSeen_mem.mp hm))]
      rw [List.map_append]
      congr 1
      · apply List.map_congr_left
        intro w hw
        have hwx : w ≠ x := fun heq => hx (heq ▸ firstSeen_mem.mp hw)
        rw [cnt_append, cnt_single_ne hwx, Nat.add_zero]
      · show [(x, 1)] = [(x, cnt x (l ++ [x]))]
        rw [cnt_append, cnt_single_self, cnt_eq_zero_of_not_mem hx]

theorem mem_countFold {l : List (List ℕ)} {e : List ℕ × ℕ}
    (h : e ∈ countFold l) : e.1 ∈ l ∧ e.2 = cnt e.1 l := by
  rw [countFold_eq] at h
  rcases List.mem_map.mp h with ⟨w, hw, rfl⟩
  exact ⟨firstSeen_mem.mp hw, rfl⟩

theorem countFold_pairwise (l : List (List ℕ)) :
    (countFold l).Pairwise fun e₁ e₂ => posOf e₁.1 l < posOf e₂.1 l := by
  rw [countFold_eq]
  rw [List.pairwise_map]
  exact firstSeen_pairwise l

/-! ### Theme-extraction lemmas: record-entry order -/

theorem mem_insertValAsc (x : List ℕ × ℕ) (l : List (List ℕ × ℕ))
    (a : List ℕ × ℕ) : a ∈ insertValAsc x l ↔ a = x ∨ a ∈ l := by
  induction l with
  | nil => simp [insertValAsc]
  | cons y ys ih =>
    unfold insertValAsc
    by_cases h : natOfDigits x.1 ≤ natOfDigits y.1
    · rw [if_pos h]
      simp only [List.mem_cons]
    · rw [if_neg h]
      simp only [List.mem_cons, ih]
      tauto

theorem insertValAsc_perm (x : List ℕ × ℕ) (l : List (List ℕ × ℕ)) :
    List.Perm (insertValAsc x l) (x :: l) := by
  induction l with
  | nil => exact List.Perm.refl _
  | cons y ys ih =>
    unfold insertValAsc
    by_cases h : natOfDigits x.1 ≤ natOfDigits y.1
    · rw [if_pos h]
    · rw [if_neg h]
      exact List.Perm.trans (List.Perm.cons y ih) (List.Perm.swap x y ys)

theorem sortValAsc_perm (l : List (List ℕ × ℕ)) :
    List.Perm (sortValAsc l) l := by
  induction l with
  | nil => exact List.Perm.refl _
  | cons x xs ih =>
    unfold sortValAsc
    exact List.Perm.trans (insertValAsc_perm x _) (List.Perm.cons x ih)

theorem insertValAsc_pairwise {x : List ℕ × ℕ} {l : List (List ℕ × ℕ)}
    (hl : l.Pairwise fun a b => natOfDigits a.1 ≤ natOfDigits b.1) :
    (insertValAsc x l).Pairwise
      fun a b => natOfDigits a.1 ≤ natOfDigits b.1 := by
  induction l with
  | nil => simp [insertValAsc]
  | cons y ys ih =>
    rcases List.pairwise_cons.mp hl with ⟨hy, hys⟩
    unfold insertValAsc
    by_cases h : natOfDigits x.1 ≤ natOfDigits y.1
    · rw [if_pos h]
      refine List.pairwise_cons.mpr ⟨?_, hl⟩
      intro z hz
      rcases List.mem_cons.mp hz with rfl | hz'
      · exact h
      · exact le_trans h (hy z hz')
    · rw [if_neg h]
      refine List.pairwise_cons.mpr ⟨?_, ih hys⟩
      intro z hz
      rcases (mem_insertValAsc x ys z).mp hz with rfl | hz'
      · exact le_of_lt (not_le.mp h)
      · exact hy z hz'

theorem sortValAsc_pairwise (l : List (List ℕ × ℕ)) :
    (sortValAsc l).Pairwise fun a b => natOfDigits a.1 ≤ natOfDigits b.1 := by
  induction l with
  | nil => exact List.Pairwise.nil
  | cons x xs ih =>
    unfold sortValAsc
    exact insertValAsc_pairwise ih

theorem recordEntries_perm (E : List (List ℕ × ℕ)) :
    List.Perm (recordEntries E) E := by
  unfold recordEntries
  exact List.Perm.trans
    ((sortValAsc_perm (E.filter fun e => isIdxKey e.1)).append_right _)
    (List.filter_append_perm _ E)

/-- Tie-break order of the frequency-record entries, as `Object.entries`
yields them: array-index digit keys first in ascending numeric order, ahead
of all remaining keys, which keep first-seen order among the filtered
tokens. -/
def themeOrder (t : List ℕ) (a b : List ℕ) : Prop :=
  (isIdxKey a = true ∧ isIdxKey b = true ∧ natOfDigits a ≤ natOfDigits b) ∨
  (isIdxKey a = true ∧ isIdxKey b = false) ∨
  (isIdxKey a = false ∧ isIdxKey b = false ∧
    posOf a (filteredTokens t) < posOf b (filteredTokens t))

theorem recordEntries_pairwise {t : List ℕ} {E : List (List ℕ × ℕ)}
    (hE : E.Pairwise fun e₁ e₂ =>
      posOf e₁.1 (filteredTokens t) < posOf e₂.1 (filteredTokens t)) :
    (recordEntries E).Pairwise fun e₁ e₂ => themeOrder t e₁.1 e₂.1 := by
  unfold recordEntries
  rw [List.pairwise_append]
  refine ⟨?_, ?_, ?_⟩
  · refine (sortValAsc_pairwise (E.filter fun e => isIdxKey e.1)).imp_of_mem ?_
    intro a b ha hb hr
    have ha' : isIdxKey a.1 = true :=
      (List.mem_filter.mp ((sortValAsc_perm _).mem_iff.mp ha)).2
    have hb' : isIdxKey b.1 = true :=
      (List.mem_filter.mp ((sortValAsc_perm _).mem_iff.mp hb)).2
    exact Or.inl ⟨ha', hb', hr⟩
  · have hp : (E.filter fun e => !isIdxKey e.1).Pairwise
        (fun e₁ e₂ => posOf e₁.1 (filteredTokens t) < posOf e₂.1 (filteredTokens t)) :=
      hE.sublist (List.filter_sublist E)
    refine hp.imp_of_mem ?_
    intro a b ha hb hr
    have ha' : isIdxKey a.1 = false := by
      have := (List.mem_filter.mp ha).2
      simpa using this
    have hb' : isIdxKey b.1 = false := by
      have := (List.mem_filter.mp hb).2
      simpa using this
    exact Or.inr (Or.inr ⟨ha', hb', hr⟩)
  · intro a ha b hb
    have ha' : isIdxKey a.1 = true :=
      (List.mem_filter.mp ((sortValAsc_perm _).mem_iff.mp ha)).2
    have hb' : isIdxKey b.1 = false := by
      have := (List.mem_filter.mp hb).2
      simpa using this
    exact Or.inr (Or.inl ⟨ha', hb'⟩)

/-- Claim C5 amended: `extractThemes` returns at most 5 tokens, none a stop
word and none of length ≤ 3, ordered by strictly descending frequency with
ties broken by the record's `Object.entries` order: canonical array-index
digit tokens first in ascending numeric order, then the remaining tokens in
first-seen order (the original claim's unconditional first-seen tie-break
fails for digit tokens, see the counterexample). -/
theorem extractThemes_spec :
    ∀ t : List ℕ,
      (extractThemes t).length ≤ 5 ∧
      (∀ w ∈ extractThemes t, w ∉ stopWords ∧ 3 < w.length) ∧
      (extractThemes t).Pairwise fun a b =>
        cnt b (tokensOf t) < cnt a (tokensOf t) ∨
        (cnt a (tokensOf t) = cnt b (tokensOf t) ∧ themeOrder t a b) := by
  intro t
  have hmem : ∀ e ∈ (sortKeyDesc (fun e : List ℕ × ℕ => ((e.2 : ℕ) : ℚ))
      (recordEntries (countFold (filteredTokens t)))).take 5,
      e ∈ countFold (filteredTokens t) := by
    intro e he
    have h1 := List.take_subset 5 _ he
    have h2 := (sortKeyDesc_perm (fun e : List ℕ × ℕ => ((e.2 : ℕ) : ℚ)) _).mem_iff.mp h1
    exact (recordEntries_perm _).mem_iff.mp h2
  refine ⟨?_, ?_, ?_⟩
  · unfold extractThemes
    rw [List.length_map]
    exact List.length_take_le 5 _
  · intro w hw
    unfold extractThemes at hw
    rcases List.mem_map.mp hw with ⟨e, he, rfl⟩
    have he' := hmem e he
    obtain ⟨hin, _⟩ := mem_countFold he'
    have hin' : e.1 ∈ (tokensOf t).filter keepTheme := hin
    have hk := (List.mem_filter.mp hin').2
    unfold keepTheme at hk
    rw [Bool.and_eq_true] at hk
    exact ⟨of_decide_eq_true hk.1, of_decide_eq_true hk.2⟩
  · unfold extractThemes
    rw [List.pairwise_map]
    have hcf := countFold_pairwise (filteredTokens t)
    have hre := recordEntries_pairwise hcf
    have hs : (sortKeyDesc (fun e : List ℕ × ℕ => ((e.2 : ℕ) : ℚ))
        (recordEntries (countFold (filteredTokens t)))).Pairwise
        (fun e₁ e₂ => ((e₂.2 : ℕ) : ℚ) < ((e₁.2 : ℕ) : ℚ) ∨
          (((e₁.2 : ℕ) : ℚ) = ((e₂.2 : ℕ) : ℚ) ∧ themeOrder t e₁.1 e₂.1)) :=
      sortKeyDesc_pairwise hre
    have h5 := hs.sublist (List.take_sublist 5 _)
    refine h5.imp_of_mem ?_
    intro a b ha hb hr
    obtain ⟨hain, haeq⟩ := mem_countFold (hmem a ha)
    obtain ⟨hbin, hbeq⟩ := mem_countFold (hmem b hb)
    have hain' : a.1 ∈ (tokensOf t).filter keepTheme := hain
    have hbin' : b.1 ∈ (tokensOf t).filter keepTheme := hbin
    have hak : keepTheme a.1 = true := (List.mem_filter.mp hain').2
    have hbk : keepTheme b.1 = true := (List.mem_filter.mp hbin').2
    have hca : cnt a.1 (filteredTokens t) = cnt a.1 (tokensOf t) :=
      cnt_filter_of_true hak _
    have hcb : cnt b.1 (filteredTokens t) = cnt b.1 (tokensOf t) :=
      cnt_filter_of_true hbk _
    rcases hr with hlt | ⟨heq, hord⟩
    · left
      have hn : b.2 < a.2 := by exact_mod_cast hlt
      rw [haeq, hbeq] at hn
      rw [← hca, ← hcb]
      exact hn
    · right
      refine ⟨?_, hord⟩
      have hn : a.2 = b.2 := by exact_mod_cast heq
      rw [haeq, hbeq] at hn
      rw [← hca, ← hcb]
      exact hn

/-- Claim C5 is refuted as stated: in "aaaa 1234 aaaa 1234" both tokens occur
twice and "aaaa" is seen first, yet the themes list "1234" first, because
`Object.entries` yields the array-index key "1234" before the ordinary key
"aaaa" regardless of insertion order. -/
theorem extractThemes_numeric_tiebreak :
    extractThemes (str "aaaa 1234 aaaa 1234") = [str "1234", str "aaaa"] ∧
    cnt (str "aaaa") (tokensOf (str "aaaa 1234 aaaa 1234")) =
      cnt (str "1234") (tokensOf (str "aaaa 1234 aaaa 1234")) ∧
    posOf (str "aaaa") (filteredTokens (str "aaaa 1234 aaaa 1234")) <
      posOf (str "1234") (filteredTokens (str "aaaa 1234 aaaa 1234")) := by
  refine ⟨?_, by decide, by decide⟩
  set_option maxRecDepth 8000 in with_unfolding_all decide

/-- Witness for the amended C5 at a concrete text. -/
theorem extractThemes_spec_witness :
    (extractThemes (str "river stone river")).length ≤ 5 ∧
    (str "river" ∉ stopWords ∧ 3 < (str "river").length) :=
  ⟨(extractThemes_spec (str "river stone river")).1,
   (extractThemes_spec (str "river stone river")).2.1 (str "river")
     (by set_option maxRecDepth 8000 in with_unfolding_all decide)⟩
